import Mathlib

/-!
Verification of the multi-armed bandit module `bandits.py` (UCB1,
EpsilonGreedy, and the Monte-Carlo simulation harness).

The Python code is shallowly embedded: the mutable `counts`/`values` lists
of an algorithm object become a record threaded through the operations,
Python floats are modelled by real numbers, and the process-global random
generator is modelled by explicitly passed draw values and a threaded
generator state.  Fallible operations (Python exceptions) get separate
`Except`-valued embeddings, suffixed `E`, that mirror CPython list
semantics (negative indexing, silent `[0] * n` clamping, `max([])` and
`randrange(0)` raising).
-/

/-! ### The `max_index` helper

Python source:
`m = max(x); return x.index(m)`.
Python `max` raises `ValueError` on an empty list; the total version below
returns 0 there (the fallible `max_indexE` mirrors the exception), and every
theorem using `max_index` assumes a nonempty list.
-/

def max_index {α : Type} [LinearOrder α] [DecidableEq α] : List α → ℕ
  | [] => 0
  | a :: as => (a :: as).indexOf (as.foldl max a)

def max_indexE {α : Type} [LinearOrder α] [DecidableEq α] : List α → Except String ℕ
  | [] => Except.error "ValueError: max() arg is an empty sequence"
  | a :: as => Except.ok ((a :: as).indexOf (as.foldl max a))

theorem foldl_max_mem {α : Type} [LinearOrder α] (as : List α) (a : α) :
    as.foldl max a ∈ a :: as := by
  induction as generalizing a with
  | nil => simp
  | cons b bs ih =>
    have h := ih (max a b)
    rw [List.foldl_cons]
    rcases List.mem_cons.mp h with h2 | h2
    · rw [h2]
      rcases max_choice a b with h1 | h1 <;> rw [h1] <;> simp
    · simp [List.mem_cons_of_mem, h2]

theorem le_foldl_max {α : Type} [LinearOrder α] (as : List α) (a : α) :
    ∀ y ∈ a :: as, y ≤ as.foldl max a := by
  induction as generalizing a with
  | nil => intro y hy; simp at hy; simp [hy]
  | cons b bs ih =>
    intro y hy
    rw [List.foldl_cons]
    have h := ih (max a b)
    rcases List.mem_cons.mp hy with rfl | hy2
    · exact le_trans (le_max_left y b) (h _ (List.mem_cons_self _ _))
    · rcases List.mem_cons.mp hy2 with rfl | hy3
      · exact le_trans (le_max_right a y) (h _ (List.mem_cons_self _ _))
      · exact h y (List.mem_cons_of_mem _ hy3)

theorem getD_ne_of_lt_indexOf {α : Type} [DecidableEq α] (l : List α) (a d : α) :
    ∀ j, j < l.indexOf a → l.getD j d ≠ a := by
  induction l with
  | nil => intro j hj; simp [List.indexOf] at hj
  | cons b bs ih =>
    intro j hj
    by_cases hba : b = a
    · subst hba; rw [List.indexOf_cons_self] at hj; omega
    · rw [List.indexOf_cons, beq_false_of_ne hba] at hj
      simp only [cond_false] at hj
      cases j with
      | zero => simpa using hba
      | succ j => rw [List.getD_cons_succ]; exact ih j (by omega)

theorem max_index_lt_length {α : Type} [LinearOrder α] [DecidableEq α]
    (x : List α) (hx : x ≠ []) : max_index x < x.length := by
  match x, hx with
  | a :: as, _ =>
    exact List.indexOf_lt_length.mpr (foldl_max_mem as a)

theorem getD_max_index {α : Type} [LinearOrder α] [DecidableEq α]
    (a : α) (as : List α) (d : α) :
    (a :: as).getD (max_index (a :: as)) d = as.foldl max a := by
  have hlt : (a :: as).indexOf (as.foldl max a) < (a :: as).length :=
    List.indexOf_lt_length.mpr (foldl_max_mem as a)
  show ((a :: as)).getD ((a :: as).indexOf (as.foldl max a)) d = _
  rw [List.getD_eq_getElem _ _ hlt]
  have := List.indexOf_get hlt
  rwa [List.get_eq_getElem] at this

theorem getD_le_getD_max_index {α : Type} [LinearOrder α] [DecidableEq α]
    (x : List α) (d : α) (j : ℕ) (hj : j < x.length) :
    x.getD j d ≤ x.getD (max_index x) d := by
  match x with
  | a :: as =>
    rw [getD_max_index, List.getD_eq_getElem _ _ hj]
    exact le_foldl_max as a _ (List.getElem_mem hj)

theorem getD_lt_of_lt_max_index {α : Type} [LinearOrder α] [DecidableEq α]
    (x : List α) (d : α) (j : ℕ) (hj : j < max_index x) :
    x.getD j d < x.getD (max_index x) d := by
  match x with
  | [] => simp [max_index] at hj
  | a :: as =>
    have hle : max_index (a :: as) ≤ (a :: as).length := List.indexOf_le_length
    have hjlen : j < (a :: as).length := lt_of_lt_of_le hj hle
    have hne : (a :: as).getD j d ≠ as.foldl max a :=
      getD_ne_of_lt_indexOf (a :: as) (as.foldl max a) d j hj
    have h1 := getD_le_getD_max_index (a :: as) d j hjlen
    rw [getD_max_index] at h1 ⊢
    exact lt_of_le_of_ne h1 hne

theorem max_index_eq_zero_of_const {α : Type} [LinearOrder α] [DecidableEq α]
    (x : List α) (d : α) (hx : x ≠ [])
    (h : ∀ i, i < x.length → x.getD i d = x.getD 0 d) : max_index x = 0 := by
  by_contra h0
  have hpos : 0 < max_index x := Nat.pos_of_ne_zero h0
  have hlt := getD_lt_of_lt_max_index x d 0 hpos
  rw [h (max_index x) (max_index_lt_length x hx)] at hlt
  exact lt_irrefl _ hlt

/-! ### The UCB1 class

Python state: `self.counts` (list of int), `self.values` (list of float).
-/

structure UCB1 where
  counts : List ℕ
  values : List ℝ

/-- Python `UCB1.initialize'(n_arms)`: `self.counts = [0] * n_arms;
self.values = [0.0] * n_arms`. -/
def UCB1.initialize' (n_arms : ℕ) : UCB1 :=
  { counts := List.replicate n_arms 0, values := List.replicate n_arms 0 }

/-- The list `ucb_values` built by `UCB1.select_arm`:
`bonus = math.sqrt((2 * math.log(total_counts)) / float(self.counts[arm]))`,
`ucb_values[arm] = self.values[arm] + bonus`, with
`total_counts = sum(self.counts)`. -/
noncomputable def UCB1.ucbValues (st : UCB1) : List ℝ :=
  let total_counts := st.counts.sum
  (List.range st.counts.length).map (fun arm =>
    st.values.getD arm 0 +
      Real.sqrt ((2 * Real.log (total_counts : ℝ)) / ((st.counts.getD arm 0 : ℕ) : ℝ)))

/-- Python `UCB1.select_arm`:
`if 0 in self.counts: return self.counts.index(0)` else build `ucb_values`
and `return max_index(ucb_values)`. -/
noncomputable def UCB1.select_arm (st : UCB1) : ℕ :=
  if 0 ∈ st.counts then st.counts.indexOf 0
  else max_index st.ucbValues

/-- Python `UCB1.update(chosen_arm, reward)`:
`n = self.counts[chosen_arm] = self.counts[chosen_arm] + 1`,
`new_value = ((n - 1) / float(n)) * value + (1 / float(n)) * reward`. -/
noncomputable def UCB1.update (st : UCB1) (chosen_arm : ℕ) (reward : ℝ) : UCB1 :=
  let n := st.counts.getD chosen_arm 0 + 1
  let value := st.values.getD chosen_arm 0
  let new_value := (((n : ℝ) - 1) / (n : ℝ)) * value + (1 / (n : ℝ)) * reward
  { counts := st.counts.set chosen_arm n,
    values := st.values.set chosen_arm new_value }

/-! ### The EpsilonGreedy class -/

structure EpsilonGreedy where
  epsilon : Option ℝ
  counts : List ℕ
  values : List ℝ

/-- Python `EpsilonGreedy.initialize'(n_arms)` (epsilon is set by the
constructor and untouched by initialize). -/
def EpsilonGreedy.initialize' (epsilon : Option ℝ) (n_arms : ℕ) : EpsilonGreedy :=
  { epsilon := epsilon,
    counts := List.replicate n_arms 0,
    values := List.replicate n_arms 0 }

/-- The effective epsilon computed at the top of
`EpsilonGreedy.select_arm`: the configured one if present, otherwise
`t = sum(self.counts) + 1; epsilon = 1 / math.log(t + 0.0000001)`. -/
noncomputable def EpsilonGreedy.effectiveEpsilon (st : EpsilonGreedy) : ℝ :=
  match st.epsilon with
  | some e => e
  | none => 1 / Real.log (((st.counts.sum : ℝ) + 1) + 0.0000001)

/-- Python `EpsilonGreedy.select_arm`.  `z` models the
`random.random()` draw in `[0, 1)`; `pick` models the `random.randrange`
draw of the explore branch (uniform over `[0, n_arms)`, modelled as
`pick % len`; `randrange(0)` raising is covered by `select_armE`). -/
noncomputable def EpsilonGreedy.select_arm (st : EpsilonGreedy) (z : ℝ) (pick : ℕ) : ℕ :=
  if z > st.effectiveEpsilon then max_index st.values
  else pick % st.values.length

/-- Python `EpsilonGreedy.update(chosen_arm, reward)`: textually identical
to `UCB1.update`. -/
noncomputable def EpsilonGreedy.update (st : EpsilonGreedy) (chosen_arm : ℕ)
    (reward : ℝ) : EpsilonGreedy :=
  let n := st.counts.getD chosen_arm 0 + 1
  let value := st.values.getD chosen_arm 0
  let new_value := (((n : ℝ) - 1) / (n : ℝ)) * value + (1 / (n : ℝ)) * reward
  { st with counts := st.counts.set chosen_arm n,
            values := st.values.set chosen_arm new_value }

/-! ### Fallible embeddings of the Python error behaviour

CPython semantics that the error-handling claims depend on:
`[0] * n` for `n <= 0` silently yields `[]`; `l[i]` for a list of length
`L` accepts any `i` with `-L <= i < L` (negative values address from the
end) and raises `IndexError` otherwise; `max([])` raises `ValueError`;
`random.randrange(0)` raises `ValueError`.
-/

/-- Effective position of a CPython list subscript `i` on a list of length
`L`: `some` of the real position when `-L <= i < L`, `none` (IndexError)
otherwise. -/
def pyListIndex (L : ℕ) (i : ℤ) : Option ℕ :=
  if 0 ≤ i then (if i < (L : ℤ) then some i.toNat else none)
  else (if -(L : ℤ) ≤ i then some (i + (L : ℤ)).toNat else none)

/-- Python `UCB1.initialize'` with an arbitrary integer `n_arms`; CPython
list repetition never raises, it clamps `n_arms <= 0` to the empty list. -/
def UCB1.initializeE (n_arms : ℤ) : Except String UCB1 :=
  Except.ok { counts := List.replicate n_arms.toNat 0,
              values := List.replicate n_arms.toNat 0 }

/-- Python `EpsilonGreedy.initialize'` with an arbitrary integer `n_arms`. -/
def EpsilonGreedy.initializeE (epsilon : Option ℝ) (n_arms : ℤ) :
    Except String EpsilonGreedy :=
  Except.ok { epsilon := epsilon,
              counts := List.replicate n_arms.toNat 0,
              values := List.replicate n_arms.toNat 0 }

/-- Python `UCB1.select_arm` with its possible `ValueError` from
`max_index` on a zero-arm state. -/
noncomputable def UCB1.select_armE (st : UCB1) : Except String ℕ :=
  if 0 ∈ st.counts then Except.ok (st.counts.indexOf 0)
  else max_indexE st.ucbValues

/-- Python `EpsilonGreedy.select_arm` with its possible `ValueError`: the
exploit branch calls `max_index` (raises on an empty list), the explore
branch calls `random.randrange(len(self.values))` (raises when the length
is 0). -/
noncomputable def EpsilonGreedy.select_armE (st : EpsilonGreedy) (z : ℝ)
    (pick : ℕ) : Except String ℕ :=
  if z > st.effectiveEpsilon then max_indexE st.values
  else if st.values.length = 0 then
    Except.error "ValueError: empty range for randrange()"
  else Except.ok (pick % st.values.length)

/-- Python `UCB1.update` with CPython subscript semantics on
`chosen_arm`: `IndexError` outside `[-n_arms, n_arms)`, silent
from-the-end addressing on `[-n_arms, 0)`.  (On a mixed-length state
Python would mutate `counts` before raising on `values`; the embedding
returns the error without the partial write, which is indistinguishable
under the equal-length invariant.) -/
noncomputable def UCB1.updateE (st : UCB1) (chosen_arm : ℤ) (reward : ℝ) :
    Except String UCB1 :=
  match pyListIndex st.counts.length chosen_arm with
  | none => Except.error "IndexError: list index out of range"
  | some a =>
    match pyListIndex st.values.length chosen_arm with
    | none => Except.error "IndexError: list index out of range"
    | some b =>
      let n := st.counts.getD a 0 + 1
      let value := st.values.getD b 0
      let new_value := (((n : ℝ) - 1) / (n : ℝ)) * value + (1 / (n : ℝ)) * reward
      Except.ok { counts := st.counts.set a n,
                  values := st.values.set b new_value }

/-- Python `EpsilonGreedy.update` with CPython subscript semantics
(textually identical to `UCB1.update`). -/
noncomputable def EpsilonGreedy.updateE (st : EpsilonGreedy) (chosen_arm : ℤ)
    (reward : ℝ) : Except String EpsilonGreedy :=
  match pyListIndex st.counts.length chosen_arm with
  | none => Except.error "IndexError: list index out of range"
  | some a =>
    match pyListIndex st.values.length chosen_arm with
    | none => Except.error "IndexError: list index out of range"
    | some b =>
      let n := st.counts.getD a 0 + 1
      let value := st.values.getD b 0
      let new_value := (((n : ℝ) - 1) / (n : ℝ)) * value + (1 / (n : ℝ)) * reward
      Except.ok { st with counts := st.counts.set a n,
                          values := st.values.set b new_value }

/-! ### Iterated calls -/

/-- A sequence of `update` calls on one arm, first reward first. -/
noncomputable def UCB1.updates : UCB1 → ℕ → List ℝ → UCB1
  | st, _, [] => st
  | st, a, r :: rs => UCB1.updates (st.update a r) a rs

/-- A sequence of `update` calls on one arm, first reward first. -/
noncomputable def EpsilonGreedy.updates : EpsilonGreedy → ℕ → List ℝ → EpsilonGreedy
  | st, _, [] => st
  | st, a, r :: rs => EpsilonGreedy.updates (st.update a r) a rs

/-- Alternating `select_arm` / `update` rounds: each round selects an arm,
then feeds the next reward to `update` on that very arm.  Returns the list
of selected arms together with the final state. -/
noncomputable def UCB1.rounds : UCB1 → List ℝ → List ℕ × UCB1
  | st, [] => ([], st)
  | st, r :: rs =>
    let a := st.select_arm
    let p := UCB1.rounds (st.update a r) rs
    (a :: p.1, p.2)

/-! ### The incremental-mean update invariant (claim C1) -/

theorem UCB1.updates_core : ∀ (rs : List ℝ) (st : UCB1) (a c : ℕ) (v : ℝ),
    a < st.counts.length → a < st.values.length →
    st.counts.getD a 0 = c → st.values.getD a 0 = v →
    (st.updates a rs).counts.length = st.counts.length ∧
    (st.updates a rs).values.length = st.values.length ∧
    (st.updates a rs).counts.getD a 0 = c + rs.length ∧
    ((c : ℝ) + rs.length) * (st.updates a rs).values.getD a 0 = (c : ℝ) * v + rs.sum := by
  intro rs
  induction rs with
  | nil =>
    intro st a c v h1 h2 h3 h4
    refine ⟨rfl, rfl, by simpa using h3, ?_⟩
    simp only [UCB1.updates, List.length_nil, List.sum_nil, Nat.cast_zero, add_zero, h4]
  | cons r rs ih =>
    intro st a c v h1 h2 h3 h4
    have hlen1 : (st.update a r).counts.length = st.counts.length := by
      simp [UCB1.update]
    have hlen2 : (st.update a r).values.length = st.values.length := by
      simp [UCB1.update]
    have hca : (st.update a r).counts.getD a 0 = c + 1 := by
      simp only [UCB1.update]
      rw [List.getD_eq_getElem _ _ (by simpa using h1), List.getElem_set_self, h3]
    have hva : (st.update a r).values.getD a 0
        = (((c : ℝ) + 1 - 1) / ((c : ℝ) + 1)) * v + (1 / ((c : ℝ) + 1)) * r := by
      simp only [UCB1.update]
      rw [List.getD_eq_getElem _ _ (by simpa using h2), List.getElem_set_self, h3, h4]
      push_cast
      ring
    obtain ⟨k1, k2, k3, k4⟩ :=
      ih (st.update a r) a (c + 1) _ (by rw [hlen1]; exact h1) (by rw [hlen2]; exact h2)
        hca hva
    have hstep : UCB1.updates st a (r :: rs) = UCB1.updates (st.update a r) a rs := rfl
    refine ⟨?_, ?_, ?_, ?_⟩
    · rw [hstep, k1, hlen1]
    · rw [hstep, k2, hlen2]
    · rw [hstep, k3]; simp; omega
    · rw [hstep]
      have hc1 : ((c : ℝ) + 1) ≠ 0 := by positivity
      have hv' : ((c : ℝ) + 1) * ((((c : ℝ) + 1 - 1) / ((c : ℝ) + 1)) * v
          + (1 / ((c : ℝ) + 1)) * r) = (c : ℝ) * v + r := by
        field_simp
      simp only [List.length_cons, List.sum_cons]
      push_cast at k4 ⊢
      linear_combination k4 + hv'

theorem EpsilonGreedy.updates_eq : ∀ (rs : List ℝ) (e : Option ℝ) (cs : List ℕ)
    (vs : List ℝ) (a : ℕ),
    EpsilonGreedy.updates ⟨e, cs, vs⟩ a rs
      = ⟨e, (UCB1.updates ⟨cs, vs⟩ a rs).counts, (UCB1.updates ⟨cs, vs⟩ a rs).values⟩ := by
  intro rs
  induction rs with
  | nil => intro e cs vs a; rfl
  | cons r rs ih =>
    intro e cs vs a
    show EpsilonGreedy.updates (EpsilonGreedy.update ⟨e, cs, vs⟩ a r) a rs = _
    have h1 : EpsilonGreedy.update ⟨e, cs, vs⟩ a r
        = ⟨e, (UCB1.update ⟨cs, vs⟩ a r).counts, (UCB1.update ⟨cs, vs⟩ a r).values⟩ := rfl
    rw [h1, ih]
    rfl

theorem getD_replicate_zero_nat (n a : ℕ) (ha : a < n) :
    (List.replicate n (0 : ℕ)).getD a 0 = 0 := by
  rw [List.getD_eq_getElem _ _ (by simpa using ha), List.getElem_replicate]

theorem getD_replicate_zero_real (n a : ℕ) (ha : a < n) :
    (List.replicate n (0 : ℝ)).getD a 0 = 0 := by
  rw [List.getD_eq_getElem _ _ (by simpa using ha), List.getElem_replicate]

/-- C1: for both UCB1 and EpsilonGreedy, after `initialize n` and any
sequence of `update` calls all directed at one in-range arm `a` with
rewards `rs`, `counts[a]` equals the number of updates and `values[a]`
equals the arithmetic mean of the rewards, while `values[a]` is 0.0 as
long as `counts[a]` is 0 (no update yet). -/
theorem C1_running_mean_correct (n a : ℕ) (e : Option ℝ) (rs : List ℝ)
    (ha : a < n) :
    ((UCB1.initialize' n).updates a rs).counts.getD a 0 = rs.length ∧
    (rs = [] → ((UCB1.initialize' n).updates a rs).values.getD a 0 = 0) ∧
    (rs ≠ [] →
      ((UCB1.initialize' n).updates a rs).values.getD a 0 = rs.sum / (rs.length : ℝ)) ∧
    ((EpsilonGreedy.initialize' e n).updates a rs).counts.getD a 0 = rs.length ∧
    (rs = [] → ((EpsilonGreedy.initialize' e n).updates a rs).values.getD a 0 = 0) ∧
    (rs ≠ [] →
      ((EpsilonGreedy.initialize' e n).updates a rs).values.getD a 0
        = rs.sum / (rs.length : ℝ)) := by
  have h1 : a < (UCB1.initialize' n).counts.length := by simp [UCB1.initialize', ha]
  have h2 : a < (UCB1.initialize' n).values.length := by simp [UCB1.initialize', ha]
  have h3 : (UCB1.initialize' n).counts.getD a 0 = 0 := getD_replicate_zero_nat n a ha
  have h4 : (UCB1.initialize' n).values.getD a 0 = 0 := getD_replicate_zero_real n a ha
  obtain ⟨_, _, k3, k4⟩ := UCB1.updates_core rs (UCB1.initialize' n) a 0 0 h1 h2 h3 h4
  have hcount : ((UCB1.initialize' n).updates a rs).counts.getD a 0 = rs.length := by
    simpa using k3
  have hzero : rs = [] → ((UCB1.initialize' n).updates a rs).values.getD a 0 = 0 := by
    intro hrs; subst hrs
    simpa [UCB1.updates] using h4
  have hmean : rs ≠ [] →
      ((UCB1.initialize' n).updates a rs).values.getD a 0 = rs.sum / (rs.length : ℝ) := by
    intro hrs
    have hlpos : 0 < rs.length := List.length_pos.mpr hrs
    have hlne : ((rs.length : ℝ)) ≠ 0 := by positivity
    rw [eq_div_iff hlne]
    have := k4
    push_cast at this
    linarith [this]
  have heg : (EpsilonGreedy.initialize' e n).updates a rs
      = ⟨e, ((UCB1.initialize' n).updates a rs).counts,
           ((UCB1.initialize' n).updates a rs).values⟩ := by
    have : EpsilonGreedy.initialize' e n
        = (⟨e, (UCB1.initialize' n).counts, (UCB1.initialize' n).values⟩ : EpsilonGreedy) := rfl
    rw [this, EpsilonGreedy.updates_eq]
  refine ⟨hcount, hzero, hmean, ?_, ?_, ?_⟩
  · rw [heg]; exact hcount
  · intro hrs; rw [heg]; exact hzero hrs
  · intro hrs; rw [heg]; exact hmean hrs

/-- Witness for C1 at `n = 2`, `a = 0`, rewards `[1, 3]`. -/
theorem C1_running_mean_correct_witness :
    0 < 2 ∧
    (((UCB1.initialize' 2).updates 0 [1, 3]).counts.getD 0 0 = ([1, 3] : List ℝ).length ∧
     (([1, 3] : List ℝ) = [] → ((UCB1.initialize' 2).updates 0 [1, 3]).values.getD 0 0 = 0) ∧
     (([1, 3] : List ℝ) ≠ [] →
       ((UCB1.initialize' 2).updates 0 [1, 3]).values.getD 0 0
         = ([1, 3] : List ℝ).sum / (([1, 3] : List ℝ).length : ℝ)) ∧
     ((EpsilonGreedy.initialize' none 2).updates 0 [1, 3]).counts.getD 0 0
        = ([1, 3] : List ℝ).length ∧
     (([1, 3] : List ℝ) = [] →
       ((EpsilonGreedy.initialize' none 2).updates 0 [1, 3]).values.getD 0 0 = 0) ∧
     (([1, 3] : List ℝ) ≠ [] →
       ((EpsilonGreedy.initialize' none 2).updates 0 [1, 3]).values.getD 0 0
         = ([1, 3] : List ℝ).sum / (([1, 3] : List ℝ).length : ℝ))) :=
  ⟨by norm_num, C1_running_mean_correct 2 0 none [1, 3] (by norm_num)⟩

/-! ### UCB1 priming (claim C2)

During priming, `counts` has the shape
`replicate i 1 ++ replicate m 0` (arms `0..i-1` pulled once, the rest
never).
-/

theorem zero_mem_pad (i m : ℕ) :
    0 ∈ List.replicate i 1 ++ List.replicate (m + 1) (0 : ℕ) := by
  simp [List.mem_append, List.mem_replicate]

theorem indexOf_zero_pad (i m : ℕ) :
    (List.replicate i 1 ++ List.replicate (m + 1) (0 : ℕ)).indexOf 0 = i := by
  induction i with
  | zero => simp [List.replicate_succ, List.indexOf_cons_self]
  | succ i ih =>
    rw [List.replicate_succ, List.cons_append, List.indexOf_cons]
    simp [ih]

theorem getD_zero_pad (i m : ℕ) :
    (List.replicate i 1 ++ List.replicate (m + 1) (0 : ℕ)).getD i 0 = 0 := by
  rw [List.getD_append_right _ _ _ _ (by simp)]
  simp [List.replicate_succ]

theorem set_zero_pad (m : ℕ) : ∀ i,
    (List.replicate i 1 ++ List.replicate (m + 1) (0 : ℕ)).set i 1
      = List.replicate (i + 1) 1 ++ List.replicate m 0 := by
  intro i
  induction i with
  | zero => simp [List.replicate_succ]
  | succ i ih =>
    rw [List.replicate_succ, List.cons_append, List.set_cons_succ, ih]
    simp [List.replicate_succ]

theorem UCB1.rounds_prime : ∀ (rs : List ℝ) (i : ℕ) (vs : List ℝ),
    (UCB1.rounds ⟨List.replicate i 1 ++ List.replicate rs.length 0, vs⟩ rs).1
      = (List.range rs.length).map (fun j => j + i) := by
  intro rs
  induction rs with
  | nil => intro i vs; rfl
  | cons r rs ih =>
    intro i vs
    have hsel : (UCB1.mk (List.replicate i 1 ++ List.replicate (rs.length + 1) 0) vs).select_arm
        = i := by
      rw [UCB1.select_arm, if_pos (zero_mem_pad i rs.length)]
      exact indexOf_zero_pad i rs.length
    simp only [List.length_cons, UCB1.rounds, hsel, UCB1.update,
      getD_zero_pad i rs.length, Nat.zero_add, set_zero_pad rs.length i]
    rw [ih (i + 1)]
    rw [List.range_succ_eq_map]
    simp only [List.map_cons, List.map_map, Nat.zero_add]
    congr 1
    apply List.map_congr_left
    intro b _
    simp only [Function.comp_apply]
    omega

/-- C2: whenever some arm has count 0, `UCB1.select_arm` returns the
lowest such index; consequently after `initialize n`, `n` alternating
select/update rounds return the arms `0, 1, ..., n-1` in ascending order,
irrespective of the rewards fed to `update`. -/
theorem C2_ucb1_priming (n : ℕ) (rs : List ℝ) (hn : 1 ≤ n) (hlen : rs.length = n) :
    (∀ st : UCB1, 0 ∈ st.counts →
        st.select_arm = st.counts.indexOf 0 ∧
        st.counts.getD (st.counts.indexOf 0) 0 = 0 ∧
        (∀ j, j < st.counts.indexOf 0 → st.counts.getD j 0 ≠ 0)) ∧
    (UCB1.rounds (UCB1.initialize' n) rs).1 = List.range n := by
  constructor
  · intro st h0
    refine ⟨by rw [UCB1.select_arm, if_pos h0], ?_, ?_⟩
    · have hlt : st.counts.indexOf 0 < st.counts.length := List.indexOf_lt_length.mpr h0
      rw [List.getD_eq_getElem _ _ hlt]
      have := List.indexOf_get hlt
      rwa [List.get_eq_getElem] at this
    · intro j hj
      exact getD_ne_of_lt_indexOf st.counts 0 0 j hj
  · have hinit : UCB1.initialize' n
        = UCB1.mk (List.replicate 0 1 ++ List.replicate rs.length 0)
            (List.replicate n 0) := by
      simp [UCB1.initialize', hlen]
    rw [hinit, UCB1.rounds_prime rs 0]
    simp [hlen]

/-- Witness for C2 at `n = 2` with rewards `[3, 7]`. -/
theorem C2_ucb1_priming_witness :
    1 ≤ 2 ∧ ([(3 : ℝ), 7].length = 2) ∧
      (UCB1.rounds (UCB1.initialize' 2) [3, 7]).1 = List.range 2 :=
  ⟨by norm_num, by simp,
    (C2_ucb1_priming 2 [3, 7] (by norm_num) (by simp)).2⟩

/-! ### UCB1 confidence-bound phase (claim C3) -/

/-- C3: whenever every count is positive, `UCB1.select_arm` returns the
index of the maximum UCB score `values[i] + sqrt((2 * ln(total_pulls)) /
counts[i])` (the list `ucbValues`), the first such index when several tie;
with all scores equal it returns index 0. -/
theorem C3_ucb1_confidence_bound (st : UCB1)
    (hne : st.counts ≠ []) (hpos : ∀ c ∈ st.counts, 0 < c) :
    st.select_arm = max_index st.ucbValues ∧
    st.ucbValues.length = st.counts.length ∧
    max_index st.ucbValues < st.ucbValues.length ∧
    (∀ j, j < st.ucbValues.length →
      st.ucbValues.getD j 0 ≤ st.ucbValues.getD (max_index st.ucbValues) 0) ∧
    (∀ j, j < max_index st.ucbValues →
      st.ucbValues.getD j 0 < st.ucbValues.getD (max_index st.ucbValues) 0) ∧
    ((∀ i, i < st.ucbValues.length → st.ucbValues.getD i 0 = st.ucbValues.getD 0 0) →
      st.select_arm = 0) := by
  have h0 : ¬(0 ∈ st.counts) := fun h => lt_irrefl 0 (hpos 0 h)
  have hsel : st.select_arm = max_index st.ucbValues := by
    rw [UCB1.select_arm, if_neg h0]
  have hlen : st.ucbValues.length = st.counts.length := by
    simp [UCB1.ucbValues]
  have hvne : st.ucbValues ≠ [] := by
    intro h
    apply hne
    rw [← List.length_eq_zero, ← hlen, h, List.length_nil]
  exact ⟨hsel, hlen, max_index_lt_length _ hvne,
    fun j hj => getD_le_getD_max_index _ _ j hj,
    fun j hj => getD_lt_of_lt_max_index _ _ j hj,
    fun hconst => by rw [hsel]; exact max_index_eq_zero_of_const _ _ hvne hconst⟩

/-- Witness for C3 at the two-arm state with both counts 1. -/
theorem C3_ucb1_confidence_bound_witness :
    ((⟨[1, 1], [0, 0]⟩ : UCB1).counts ≠ [] ∧
      ∀ c ∈ (⟨[1, 1], [0, 0]⟩ : UCB1).counts, 0 < c) ∧
    (⟨[1, 1], [0, 0]⟩ : UCB1).select_arm
      = max_index (⟨[1, 1], [0, 0]⟩ : UCB1).ucbValues :=
  ⟨⟨by simp, by decide⟩,
    (C3_ucb1_confidence_bound ⟨[1, 1], [0, 0]⟩ (by simp) (by decide)).1⟩

/-! ### EpsilonGreedy annealing (claim C6) -/

/-- C6: in annealing mode (no fixed epsilon) the effective epsilon is
`1 / ln(sum(counts) + 1 + 1e-7)`, and it strictly decreases as
`sum(counts)` increases. -/
theorem C6_annealing_epsilon_strict_anti (st1 st2 : EpsilonGreedy)
    (h1 : st1.epsilon = none) (h2 : st2.epsilon = none)
    (hlt : st1.counts.sum < st2.counts.sum) :
    st1.effectiveEpsilon = 1 / Real.log (((st1.counts.sum : ℝ) + 1) + 0.0000001) ∧
    st2.effectiveEpsilon < st1.effectiveEpsilon := by
  have e1 : st1.effectiveEpsilon
      = 1 / Real.log (((st1.counts.sum : ℝ) + 1) + 0.0000001) := by
    simp [EpsilonGreedy.effectiveEpsilon, h1]
  have e2 : st2.effectiveEpsilon
      = 1 / Real.log (((st2.counts.sum : ℝ) + 1) + 0.0000001) := by
    simp [EpsilonGreedy.effectiveEpsilon, h2]
  have hs1 : (0 : ℝ) ≤ (st1.counts.sum : ℝ) := Nat.cast_nonneg _
  have harg1 : 1 < ((st1.counts.sum : ℝ) + 1) + 0.0000001 := by
    have hc : (0 : ℝ) < 0.0000001 := by norm_num
    linarith
  have hcast : (st1.counts.sum : ℝ) < (st2.counts.sum : ℝ) := by exact_mod_cast hlt
  have hlog1 : 0 < Real.log (((st1.counts.sum : ℝ) + 1) + 0.0000001) :=
    Real.log_pos harg1
  have hloglt : Real.log (((st1.counts.sum : ℝ) + 1) + 0.0000001)
      < Real.log (((st2.counts.sum : ℝ) + 1) + 0.0000001) := by
    apply Real.log_lt_log (by linarith)
    linarith
  refine ⟨e1, ?_⟩
  rw [e1, e2]
  exact one_div_lt_one_div_of_lt hlog1 hloglt

/-- Witness for C6 with total pull counts 0 and 2. -/
theorem C6_annealing_epsilon_strict_anti_witness :
    (⟨none, [0], []⟩ : EpsilonGreedy).epsilon = none ∧
    (⟨none, [2], []⟩ : EpsilonGreedy).epsilon = none ∧
    (⟨none, [0], []⟩ : EpsilonGreedy).counts.sum
      < (⟨none, [2], []⟩ : EpsilonGreedy).counts.sum ∧
    (⟨none, [2], []⟩ : EpsilonGreedy).effectiveEpsilon
      < (⟨none, [0], []⟩ : EpsilonGreedy).effectiveEpsilon :=
  ⟨rfl, rfl, by decide,
    (C6_annealing_epsilon_strict_anti ⟨none, [0], []⟩ ⟨none, [2], []⟩ rfl rfl
      (by decide)).2⟩

/-! ### Frame property of update (claim C10) -/

theorem getD_set_ne {α : Type} (l : List α) (i j : ℕ) (v d : α) (h : i ≠ j) :
    (l.set i v).getD j d = l.getD j d := by
  rw [List.getD_eq_getElem?_getD, List.getD_eq_getElem?_getD, List.getElem?_set_ne h]

/-- C10: `update` on a valid in-range arm modifies only that arm's count
and value: every other index of `counts` and `values` is unchanged, both
lengths are unchanged, and EpsilonGreedy's `epsilon` is unchanged. -/
theorem C10_update_frame (stU : UCB1) (stE : EpsilonGreedy) (a : ℕ) (r : ℝ)
    (hU1 : a < stU.counts.length) (hU2 : a < stU.values.length)
    (hE1 : a < stE.counts.length) (hE2 : a < stE.values.length) :
    ((stU.update a r).counts.length = stU.counts.length ∧
     (stU.update a r).values.length = stU.values.length ∧
     ∀ j, j ≠ a →
       (stU.update a r).counts.getD j 0 = stU.counts.getD j 0 ∧
       (stU.update a r).values.getD j 0 = stU.values.getD j 0) ∧
    ((stE.update a r).counts.length = stE.counts.length ∧
     (stE.update a r).values.length = stE.values.length ∧
     (stE.update a r).epsilon = stE.epsilon ∧
     ∀ j, j ≠ a →
       (stE.update a r).counts.getD j 0 = stE.counts.getD j 0 ∧
       (stE.update a r).values.getD j 0 = stE.values.getD j 0) := by
  refine ⟨⟨by simp [UCB1.update], by simp [UCB1.update], fun j hj => ⟨?_, ?_⟩⟩,
    ⟨by simp [EpsilonGreedy.update], by simp [EpsilonGreedy.update], rfl,
      fun j hj => ⟨?_, ?_⟩⟩⟩
  · exact getD_set_ne _ _ _ _ _ (fun h => hj h.symm)
  · exact getD_set_ne _ _ _ _ _ (fun h => hj h.symm)
  · exact getD_set_ne _ _ _ _ _ (fun h => hj h.symm)
  · exact getD_set_ne _ _ _ _ _ (fun h => hj h.symm)

/-- Witness for C10 on one-arm states. -/
theorem C10_update_frame_witness :
    (0 < (⟨[0], [0]⟩ : UCB1).counts.length ∧
     0 < (⟨[0], [0]⟩ : UCB1).values.length ∧
     0 < (⟨none, [0], [0]⟩ : EpsilonGreedy).counts.length ∧
     0 < (⟨none, [0], [0]⟩ : EpsilonGreedy).values.length) ∧
    ((EpsilonGreedy.update ⟨none, [0], [0]⟩ 0 1).epsilon
      = (⟨none, [0], [0]⟩ : EpsilonGreedy).epsilon) :=
  ⟨⟨by decide, by decide, by decide, by decide⟩,
    (C10_update_frame ⟨[0], [0]⟩ ⟨none, [0], [0]⟩ 0 1
      (by decide) (by decide) (by decide) (by decide)).2.2.2.1⟩

/-! ### No reachable numeric degeneracy (claim C9) -/

/-- C9: under the structural guards, no degenerate numeric operation
occurs.  In `UCB1.select_arm` the confidence-bound branch runs only when
every count is positive, and then `total_pulls = sum(counts)` is at least
`n_arms >= 1`, the logarithm is nonnegative, the sqrt argument is
nonnegative, and each division is by a positive count.  In EpsilonGreedy
annealing mode the log argument `sum(counts) + 1 + 1e-7` exceeds 1 for
every state, so the log is positive and the effective epsilon is a
division by a nonzero quantity. -/
theorem C9_no_numeric_degeneracy (stU : UCB1) (stE : EpsilonGreedy)
    (hne : stU.counts ≠ []) (hpos : ∀ c ∈ stU.counts, 0 < c) :
    (stU.counts.length ≤ stU.counts.sum ∧
     1 ≤ ((stU.counts.sum : ℝ)) ∧
     0 ≤ Real.log ((stU.counts.sum : ℝ)) ∧
     (∀ arm, arm < stU.counts.length →
       0 < ((stU.counts.getD arm 0 : ℕ) : ℝ) ∧
       0 ≤ (2 * Real.log ((stU.counts.sum : ℝ)))
            / ((stU.counts.getD arm 0 : ℕ) : ℝ))) ∧
    (stE.epsilon = none →
      1 < ((stE.counts.sum : ℝ) + 1) + 0.0000001 ∧
      0 < Real.log (((stE.counts.sum : ℝ) + 1) + 0.0000001) ∧
      Real.log (((stE.counts.sum : ℝ) + 1) + 0.0000001) ≠ 0 ∧
      stE.effectiveEpsilon
        = 1 / Real.log (((stE.counts.sum : ℝ) + 1) + 0.0000001)) := by
  have hlensum : stU.counts.length ≤ stU.counts.sum :=
    List.length_le_sum_of_one_le _ (fun i hi => hpos i hi)
  have hlenpos : 0 < stU.counts.length := List.length_pos.mpr hne
  have hsum1 : 1 ≤ stU.counts.sum := le_trans hlenpos hlensum
  have hsum1R : 1 ≤ ((stU.counts.sum : ℝ)) := by exact_mod_cast hsum1
  have hlog : 0 ≤ Real.log ((stU.counts.sum : ℝ)) := Real.log_nonneg hsum1R
  refine ⟨⟨hlensum, hsum1R, hlog, fun arm harm => ?_⟩, fun heps => ?_⟩
  · have hmem : stU.counts.getD arm 0 ∈ stU.counts := by
      rw [List.getD_eq_getElem _ _ harm]
      exact List.getElem_mem harm
    have hc : 0 < stU.counts.getD arm 0 := hpos _ hmem
    have hcR : 0 < ((stU.counts.getD arm 0 : ℕ) : ℝ) := by exact_mod_cast hc
    exact ⟨hcR, div_nonneg (by linarith) (le_of_lt hcR)⟩
  · have hs : (0 : ℝ) ≤ (stE.counts.sum : ℝ) := Nat.cast_nonneg _
    have harg : 1 < ((stE.counts.sum : ℝ) + 1) + 0.0000001 := by
      have hc : (0 : ℝ) < 0.0000001 := by norm_num
      linarith
    have hlogpos : 0 < Real.log (((stE.counts.sum : ℝ) + 1) + 0.0000001) :=
      Real.log_pos harg
    exact ⟨harg, hlogpos, ne_of_gt hlogpos,
      by simp [EpsilonGreedy.effectiveEpsilon, heps]⟩

/-- Witness for C9 on a one-arm UCB1 state with one pull. -/
theorem C9_no_numeric_degeneracy_witness :
    ((⟨[1], [0]⟩ : UCB1).counts ≠ [] ∧
      ∀ c ∈ (⟨[1], [0]⟩ : UCB1).counts, 0 < c) ∧
    (⟨[1], [0]⟩ : UCB1).counts.length ≤ (⟨[1], [0]⟩ : UCB1).counts.sum :=
  ⟨⟨by simp, by decide⟩,
    (C9_no_numeric_degeneracy ⟨[1], [0]⟩ ⟨none, [], []⟩ (by simp) (by decide)).1.1⟩

/-! ### EpsilonGreedy with fixed epsilon 0.0 (claim C8)

The code exploits exactly when the uniform draw is strictly greater than
epsilon.  With epsilon = 0.0 the draw `z = 0.0` (a possible value of
`random.random()` on `[0, 1)`) fails the strict comparison and takes the
explore branch, so the claim "always exploits for every draw in `[0, 1)`"
fails at `z = 0`; it holds on `(0, 1)`.
-/

/-- C8 counterexample: with `epsilon = 0.0` and the in-range draw
`z = 0`, `select_arm` takes the explore branch and here returns arm 1,
while the exploit arm (first index of the maximum value) is 0. -/
theorem C8_counterexample :
    (0 : ℝ) ∈ Set.Ico (0 : ℝ) 1 ∧
    EpsilonGreedy.select_arm ⟨some 0, [1, 1], [5, 0]⟩ 0 1 = 1 ∧
    max_index [(5 : ℝ), 0] = 0 := by
  refine ⟨⟨le_refl 0, by norm_num⟩, ?_, ?_⟩
  · rw [EpsilonGreedy.select_arm]
    have he : (⟨some 0, [1, 1], [5, 0]⟩ : EpsilonGreedy).effectiveEpsilon = 0 := by
      simp [EpsilonGreedy.effectiveEpsilon]
    rw [he, if_neg (lt_irrefl (0 : ℝ))]
    simp
  · have hm : List.foldl max (5 : ℝ) [0] = 5 := by
      simp only [List.foldl_cons, List.foldl_nil]
      exact max_eq_left (by norm_num)
    show [(5 : ℝ), 0].indexOf (List.foldl max (5 : ℝ) [0]) = 0
    rw [hm]
    exact List.indexOf_cons_self _ _

/-- C8 (amended): with a fixed epsilon of 0.0 and a nonempty value list,
`select_arm` takes the exploit branch (returning the first index of the
maximum of `values`) for every draw `z` with `0 < z < 1`; the draw
`z = 0`, possible under a uniform `[0, 1)` generator, instead explores. -/
theorem C8_fixed_zero_epsilon_exploits (st : EpsilonGreedy) (z : ℝ) (pick : ℕ)
    (heps : st.epsilon = some 0) (hz0 : 0 < z) (hz1 : z < 1)
    (hne : st.values ≠ []) :
    st.select_arm z pick = max_index st.values ∧
    max_index st.values < st.values.length ∧
    (∀ j, j < st.values.length →
      st.values.getD j 0 ≤ st.values.getD (max_index st.values) 0) ∧
    (∀ j, j < max_index st.values →
      st.values.getD j 0 < st.values.getD (max_index st.values) 0) := by
  have he : st.effectiveEpsilon = 0 := by
    simp [EpsilonGreedy.effectiveEpsilon, heps]
  refine ⟨?_, max_index_lt_length _ hne,
    fun j hj => getD_le_getD_max_index _ _ j hj,
    fun j hj => getD_lt_of_lt_max_index _ _ j hj⟩
  rw [EpsilonGreedy.select_arm, he, if_pos hz0]

/-- Witness for C8 (amended) at `z = 1/2` on a two-value state. -/
theorem C8_fixed_zero_epsilon_exploits_witness :
    ((⟨some 0, [1, 1], [5, 0]⟩ : EpsilonGreedy).epsilon = some 0 ∧
      (0 : ℝ) < 1 / 2 ∧ (1 / 2 : ℝ) < 1 ∧
      (⟨some 0, [1, 1], [5, 0]⟩ : EpsilonGreedy).values ≠ []) ∧
    EpsilonGreedy.select_arm ⟨some 0, [1, 1], [5, 0]⟩ (1 / 2) 1
      = max_index (⟨some 0, [1, 1], [5, 0]⟩ : EpsilonGreedy).values :=
  ⟨⟨rfl, by norm_num, by norm_num, by simp⟩,
    (C8_fixed_zero_epsilon_exploits ⟨some 0, [1, 1], [5, 0]⟩ (1 / 2) 1 rfl
      (by norm_num) (by norm_num) (by simp)).1⟩

/-! ### Precondition handling (claim C7) -/

theorem pyListIndex_none (L : ℕ) (c : ℤ)
    (hc : c < -(L : ℤ) ∨ (L : ℤ) ≤ c) : pyListIndex L c = none := by
  rw [pyListIndex]
  rcases hc with h | h
  · rw [if_neg (by omega), if_neg (by omega)]
  · rw [if_pos (by omega), if_neg (by omega)]

/-- C7 counterexample: `initialize` with `n_arms <= 0` does not raise:
CPython evaluates `[0] * n` for `n <= 0` to `[]`, silently producing a
zero-arm state; and `update(-1, r)` on a two-arm state is silently
accepted (CPython negative indexing), not rejected. -/
theorem C7_counterexample :
    UCB1.initializeE 0 = Except.ok ⟨[], []⟩ ∧
    EpsilonGreedy.initializeE none (-1) = Except.ok ⟨none, [], []⟩ ∧
    pyListIndex 2 (-1) = some 1 ∧
    (UCB1.updateE ⟨[1, 1], [0, 0]⟩ (-1) 1).isOk = true := by
  have hidx : pyListIndex 2 (-1) = some 1 := by
    rw [pyListIndex, if_neg (by norm_num), if_pos (by norm_num)]
    rfl
  refine ⟨rfl, rfl, hidx, ?_⟩
  have h1 : (⟨[1, 1], [0, 0]⟩ : UCB1).counts.length = 2 := rfl
  have h2 : (⟨[1, 1], [0, 0]⟩ : UCB1).values.length = 2 := rfl
  simp only [UCB1.updateE, h1, h2, hidx]
  rfl

/-- C7 (amended): `select_arm` called before `initialize` (on the
constructor state with empty `counts`/`values`) raises for both
algorithms, and `update` raises whenever `chosen_arm` falls outside
CPython's accepted subscript range `[-n_arms, n_arms)`; but `initialize`
with `n_arms <= 0` does not raise (it silently yields a zero-arm state),
and a negative in-range `chosen_arm` is silently accepted. -/
theorem C7_preconditions (n : ℕ) (c m : ℤ) (z r : ℝ) (pick : ℕ)
    (e : Option ℝ) (stU : UCB1) (stE : EpsilonGreedy)
    (hU1 : stU.counts.length = n) (hU2 : stU.values.length = n)
    (hE1 : stE.counts.length = n) (hE2 : stE.values.length = n)
    (hc : c < -(n : ℤ) ∨ (n : ℤ) ≤ c) (hm : m ≤ 0) :
    (UCB1.select_armE ⟨[], []⟩).isOk = false ∧
    (EpsilonGreedy.select_armE ⟨e, [], []⟩ z pick).isOk = false ∧
    (UCB1.updateE stU c r).isOk = false ∧
    (EpsilonGreedy.updateE stE c r).isOk = false ∧
    UCB1.initializeE m = Except.ok ⟨[], []⟩ ∧
    EpsilonGreedy.initializeE e m = Except.ok ⟨e, [], []⟩ := by
  have hmz : m.toNat = 0 := Int.toNat_of_nonpos hm
  refine ⟨?_, ?_, ?_, ?_, ?_, ?_⟩
  · rw [UCB1.select_armE, if_neg (by simp)]
    have : (⟨[], []⟩ : UCB1).ucbValues = [] := rfl
    rw [this]
    rfl
  · rw [EpsilonGreedy.select_armE]
    split
    · rfl
    · rfl
  · rw [UCB1.updateE, hU1, pyListIndex_none n c hc]
    rfl
  · rw [EpsilonGreedy.updateE, hE1, pyListIndex_none n c hc]
    rfl
  · rw [UCB1.initializeE, hmz]
    rfl
  · rw [EpsilonGreedy.initializeE, hmz]
    rfl

/-- Witness for C7 (amended) at `n = 2`, `chosen_arm = 5`, `n_arms = 0`. -/
theorem C7_preconditions_witness :
    ((⟨[1, 1], [0, 0]⟩ : UCB1).counts.length = 2 ∧
     (⟨[1, 1], [0, 0]⟩ : UCB1).values.length = 2 ∧
     (⟨none, [1, 1], [0, 0]⟩ : EpsilonGreedy).counts.length = 2 ∧
     (⟨none, [1, 1], [0, 0]⟩ : EpsilonGreedy).values.length = 2 ∧
     ((5 : ℤ) < -(2 : ℤ) ∨ (2 : ℤ) ≤ (5 : ℤ)) ∧ (0 : ℤ) ≤ 0) ∧
    ((UCB1.select_armE ⟨[], []⟩).isOk = false ∧
     (EpsilonGreedy.select_armE ⟨none, [], []⟩ 0 0).isOk = false ∧
     (UCB1.updateE ⟨[1, 1], [0, 0]⟩ 5 1).isOk = false ∧
     (EpsilonGreedy.updateE ⟨none, [1, 1], [0, 0]⟩ 5 1).isOk = false ∧
     UCB1.initializeE 0 = Except.ok ⟨[], []⟩ ∧
     EpsilonGreedy.initializeE none 0 = Except.ok ⟨none, [], []⟩) :=
  ⟨⟨rfl, rfl, rfl, rfl, Or.inr (by norm_num), le_refl 0⟩,
    C7_preconditions 2 5 0 0 1 0 none ⟨[1, 1], [0, 0]⟩ ⟨none, [1, 1], [0, 0]⟩
      rfl rfl rfl rfl (Or.inr (by norm_num)) (le_refl 0)⟩

/-! ### The Monte-Carlo simulation harness (`BanditTestCase._test_algorithm`)

The simulator is polymorphic over the algorithm under test (capability set
initialize / select_arm / update) and the reward sources, exactly as the
Python loop is.  The process-global `random` generator is modelled by a
state `ρ` threaded through `select_arm` and through each arm's `draw`.
Rewards are modelled as rationals (an exact model of the float values that
flow through the trace bookkeeping).
-/

/-- A reward source: anything exposing `draw`, consuming and returning the
shared generator state. -/
def Arm (ρ : Type) : Type := ρ → ℚ × ρ

/-- An algorithm under test: the `{initialize, select_arm, update}`
capability set. -/
structure BanditAlgo (σ ρ : Type) where
  initialize' : ℕ → σ
  select_arm : σ → ρ → ℕ × ρ
  update : σ → ℕ → ℚ → σ

/-- The loop state of `_test_algorithm`: the algorithm object, the
generator, and the five preallocated output lists. -/
structure SimState (σ ρ : Type) where
  algo : σ
  rng : ρ
  sim_nums : List ℕ
  times : List ℕ
  chosen_arms : List ℕ
  rewards : List ℚ
  cumulative_rewards : List ℚ

/-- One inner-loop iteration of `_test_algorithm` at run `sim` and pull
`t` (both 1-based): `index = (sim - 1) * horizon + t - 1`, record `sim`
and `t`, select an arm, record `chosen_arm + 1`, draw a reward, record
it, record the cumulative reward (reset at `t == 1`), update the
algorithm.  `arms[chosen]` is embedded with `getD` (an out-of-range
chosen arm would raise in Python; the trace-shape claims do not depend on
the drawn values). -/
def simPull {σ ρ : Type} (A : BanditAlgo σ ρ) (arms : List (Arm ρ))
    (horizon sim t : ℕ) (st : SimState σ ρ) : SimState σ ρ :=
  let index := (sim - 1) * horizon + t - 1
  let sim_nums := st.sim_nums.set index sim
  let times := st.times.set index t
  let ch := A.select_arm st.algo st.rng
  let chosen_arms := st.chosen_arms.set index (ch.1 + 1)
  let dr := (arms.getD ch.1 (fun g => (0, g))) ch.2
  let rewards := st.rewards.set index dr.1
  let cumulative_rewards :=
    if t = 1 then st.cumulative_rewards.set index dr.1
    else st.cumulative_rewards.set index
      (st.cumulative_rewards.getD (index - 1) 0 + dr.1)
  { algo := A.update st.algo ch.1 dr.1, rng := dr.2,
    sim_nums := sim_nums, times := times, chosen_arms := chosen_arms,
    rewards := rewards, cumulative_rewards := cumulative_rewards }

/-- One run: `algo.initialize(len(arms))` followed by
`for t in range(horizon)` with `t = t + 1`. -/
def simRun {σ ρ : Type} (A : BanditAlgo σ ρ) (arms : List (Arm ρ))
    (horizon sim : ℕ) (st : SimState σ ρ) : SimState σ ρ :=
  (List.range horizon).foldl (fun s t0 => simPull A arms horizon sim (t0 + 1) s)
    { st with algo := A.initialize' arms.length }

/-- `BanditTestCase._test_algorithm(algo, arms, num_sims, horizon)`:
preallocates the five lists at length `num_sims * horizon` and runs
`for sim in range(num_sims)` with `sim = sim + 1`.  `s0` and `r0` are the
incoming algorithm-object state and generator state. -/
def test_algorithm {σ ρ : Type} (A : BanditAlgo σ ρ) (arms : List (Arm ρ))
    (num_sims horizon : ℕ) (s0 : σ) (r0 : ρ) : SimState σ ρ :=
  (List.range num_sims).foldl (fun st sm => simRun A arms horizon (sm + 1) st)
    { algo := s0, rng := r0,
      sim_nums := List.replicate (num_sims * horizon) 0,
      times := List.replicate (num_sims * horizon) 0,
      chosen_arms := List.replicate (num_sims * horizon) 0,
      rewards := List.replicate (num_sims * horizon) 0,
      cumulative_rewards := List.replicate (num_sims * horizon) 0 }

/-! Reference sequences: the chosen-arm / reward pairs that the loop
produces, computed directly by iterating select / draw / update. -/

/-- One select / draw / update step: the recorded pair, the updated
algorithm state, the advanced generator. -/
def onePull {σ ρ : Type} (A : BanditAlgo σ ρ) (arms : List (Arm ρ))
    (s : σ) (g : ρ) : (ℕ × ℚ) × σ × ρ :=
  let ch := A.select_arm s g
  let dr := (arms.getD ch.1 (fun h => (0, h))) ch.2
  ((ch.1, dr.1), A.update s ch.1 dr.1, dr.2)

/-- The pairs produced by `k` successive pulls. -/
def pullsAux {σ ρ : Type} (A : BanditAlgo σ ρ) (arms : List (Arm ρ)) :
    ℕ → σ → ρ → List (ℕ × ℚ) × σ × ρ
  | 0, s, g => ([], s, g)
  | k + 1, s, g =>
    let p := onePull A arms s g
    let rest := pullsAux A arms k p.2.1 p.2.2
    (p.1 :: rest.1, rest.2)

/-- The per-run pull lists of `s` successive runs, each starting from a
freshly initialized algorithm, sharing the generator. -/
def simPulls {σ ρ : Type} (A : BanditAlgo σ ρ) (arms : List (Arm ρ))
    (horizon : ℕ) : ℕ → ρ → List (List (ℕ × ℚ)) × ρ
  | 0, g => ([], g)
  | s + 1, g =>
    let one := pullsAux A arms horizon (A.initialize' arms.length) g
    let rest := simPulls A arms horizon s one.2.2
    (one.1 :: rest.1, rest.2)

/-- Running prefix sums: the `cumulative_rewards` column of one run. -/
def partialSums (acc : ℚ) : List ℚ → List ℚ
  | [] => []
  | r :: rs => (acc + r) :: partialSums (acc + r) rs

/-- Write the values `vs` at consecutive positions `i, i+1, ...` of `l`:
the in-place writes into the preallocated trace lists. -/
def setRange {α : Type} : List α → ℕ → List α → List α
  | l, _, [] => l
  | l, i, v :: vs => setRange (l.set i v) (i + 1) vs

theorem setRange_length {α : Type} : ∀ (vs l : List α) (i : ℕ),
    (setRange l i vs).length = l.length := by
  intro vs
  induction vs with
  | nil => intro l i; rfl
  | cons v vs ih =>
    intro l i
    rw [setRange, ih, List.length_set]

theorem setRange_append {α : Type} : ∀ (vs ws l : List α) (i : ℕ),
    setRange l i (vs ++ ws) = setRange (setRange l i vs) (i + vs.length) ws := by
  intro vs
  induction vs with
  | nil => intro ws l i; simp [setRange]
  | cons v vs ih =>
    intro ws l i
    rw [List.cons_append, setRange, setRange, ih]
    congr 1
    simp
    omega

theorem setRange_snoc {α : Type} (vs : List α) (l : List α) (i : ℕ) (v : α) :
    setRange l i (vs ++ [v]) = (setRange l i vs).set (i + vs.length) v := by
  rw [setRange_append]
  rfl

theorem getD_set_self {α : Type} (l : List α) (i : ℕ) (v d : α)
    (h : i < l.length) : (l.set i v).getD i d = v := by
  rw [List.getD_eq_getElem _ _ (by simpa using h), List.getElem_set_self]

theorem getD_setRange_lt_start {α : Type} : ∀ (vs l : List α) (i j : ℕ) (d : α),
    j < i → (setRange l i vs).getD j d = l.getD j d := by
  intro vs
  induction vs with
  | nil => intro l i j d _; rfl
  | cons v vs ih =>
    intro l i j d hj
    rw [setRange, ih _ _ _ _ (by omega), getD_set_ne _ _ _ _ _ (by omega)]

theorem getD_setRange {α : Type} : ∀ (vs l : List α) (i j : ℕ) (d : α),
    j < vs.length → i + vs.length ≤ l.length →
    (setRange l i vs).getD (i + j) d = vs.getD j d := by
  intro vs
  induction vs with
  | nil => intro l i j d hj _; simp at hj
  | cons v vs ih =>
    intro l i j d hj hlen
    rw [setRange]
    cases j with
    | zero =>
      rw [getD_setRange_lt_start _ _ _ _ _ (by omega)]
      simp only [Nat.add_zero, List.getD_cons_zero]
      exact getD_set_self l i v d (by simp at hlen; omega)
    | succ j =>
      have : i + (j + 1) = (i + 1) + j := by omega
      rw [this, ih (l.set i v) (i + 1) j d (by simpa using hj)
        (by simp at hlen ⊢; omega)]
      rfl

theorem setRange_cons_succ {α : Type} : ∀ (vs : List α) (x : α) (l : List α) (i : ℕ),
    setRange (x :: l) (i + 1) vs = x :: setRange l i vs := by
  intro vs
  induction vs with
  | nil => intro x l i; rfl
  | cons v vs ih =>
    intro x l i
    rw [setRange, setRange, List.set_cons_succ, ih]

theorem setRange_full {α : Type} : ∀ (vs l : List α), vs.length = l.length →
    setRange l 0 vs = vs := by
  intro vs
  induction vs with
  | nil =>
    intro l h
    rw [List.eq_nil_of_length_eq_zero h.symm]
    rfl
  | cons v vs ih =>
    intro l h
    match l, h with
    | a :: l', h =>
      rw [setRange, List.set_cons_zero, setRange_cons_succ, ih l' (by simpa using h)]

theorem partialSums_length : ∀ (rs : List ℚ) (a : ℚ),
    (partialSums a rs).length = rs.length := by
  intro rs
  induction rs with
  | nil => intro a; rfl
  | cons r rs ih => intro a; rw [partialSums, List.length_cons, ih, List.length_cons]

theorem partialSums_snoc : ∀ (rs : List ℚ) (a r : ℚ),
    partialSums a (rs ++ [r]) = partialSums a rs ++ [a + rs.sum + r] := by
  intro rs
  induction rs with
  | nil => intro a r; simp [partialSums]
  | cons s rs ih =>
    intro a r
    rw [List.cons_append, partialSums, ih, partialSums, List.cons_append,
      List.sum_cons]
    congr 3
    ring

theorem partialSums_getD : ∀ (rs : List ℚ) (a : ℚ) (j : ℕ), j < rs.length →
    (partialSums a rs).getD j 0 = a + (rs.take (j + 1)).sum := by
  intro rs
  induction rs with
  | nil => intro a j hj; simp at hj
  | cons r rs ih =>
    intro a j hj
    cases j with
    | zero => simp [partialSums]
    | succ j =>
      rw [partialSums, List.getD_cons_succ, ih (a + r) j (by simpa using hj)]
      simp [List.take_cons]
      ring

theorem pullsAux_length {σ ρ : Type} (A : BanditAlgo σ ρ) (arms : List (Arm ρ)) :
    ∀ (k : ℕ) (s : σ) (g : ρ), (pullsAux A arms k s g).1.length = k := by
  intro k
  induction k with
  | zero => intro s g; rfl
  | succ k ih =>
    intro s g
    rw [pullsAux, List.length_cons, ih]

theorem pullsAux_succ {σ ρ : Type} (A : BanditAlgo σ ρ) (arms : List (Arm ρ)) :
    ∀ (k : ℕ) (s : σ) (g : ρ),
    pullsAux A arms (k + 1) s g
      = ((pullsAux A arms k s g).1
            ++ [(onePull A arms (pullsAux A arms k s g).2.1 (pullsAux A arms k s g).2.2).1],
         (onePull A arms (pullsAux A arms k s g).2.1 (pullsAux A arms k s g).2.2).2) := by
  intro k
  induction k with
  | zero => intro s g; rfl
  | succ k ih =>
    intro s g
    have h1 : pullsAux A arms (k + 1 + 1) s g
        = ((onePull A arms s g).1
              :: (pullsAux A arms (k + 1) (onePull A arms s g).2.1 (onePull A arms s g).2.2).1,
           (pullsAux A arms (k + 1) (onePull A arms s g).2.1 (onePull A arms s g).2.2).2) := rfl
    have h2 : pullsAux A arms (k + 1) s g
        = ((onePull A arms s g).1
              :: (pullsAux A arms k (onePull A arms s g).2.1 (onePull A arms s g).2.2).1,
           (pullsAux A arms k (onePull A arms s g).2.1 (onePull A arms s g).2.2).2) := rfl
    rw [h1, ih, h2]
    simp

theorem simPulls_count {σ ρ : Type} (A : BanditAlgo σ ρ) (arms : List (Arm ρ))
    (H : ℕ) : ∀ (s : ℕ) (g : ρ), (simPulls A arms H s g).1.length = s := by
  intro s
  induction s with
  | zero => intro g; rfl
  | succ s ih =>
    intro g
    rw [simPulls, List.length_cons, ih]

theorem simPulls_mem_length {σ ρ : Type} (A : BanditAlgo σ ρ) (arms : List (Arm ρ))
    (H : ℕ) : ∀ (s : ℕ) (g : ρ) (l : List (ℕ × ℚ)),
    l ∈ (simPulls A arms H s g).1 → l.length = H := by
  intro s
  induction s with
  | zero => intro g l hl; simp [simPulls] at hl
  | succ s ih =>
    intro g l hl
    rw [simPulls] at hl
    rcases List.mem_cons.mp hl with rfl | hl2
    · exact pullsAux_length A arms H _ _
    · exact ih _ l hl2

theorem simPulls_succ {σ ρ : Type} (A : BanditAlgo σ ρ) (arms : List (Arm ρ))
    (H : ℕ) : ∀ (s : ℕ) (g : ρ),
    simPulls A arms H (s + 1) g
      = ((simPulls A arms H s g).1
            ++ [(pullsAux A arms H (A.initialize' arms.length)
                  (simPulls A arms H s g).2).1],
         (pullsAux A arms H (A.initialize' arms.length)
            (simPulls A arms H s g).2).2.2) := by
  intro s
  induction s with
  | zero => intro g; rfl
  | succ s ih =>
    intro g
    have h1 : simPulls A arms H (s + 1 + 1) g
        = ((pullsAux A arms H (A.initialize' arms.length) g).1
              :: (simPulls A arms H (s + 1)
                    (pullsAux A arms H (A.initialize' arms.length) g).2.2).1,
           (simPulls A arms H (s + 1)
              (pullsAux A arms H (A.initialize' arms.length) g).2.2).2) := rfl
    have h2 : simPulls A arms H (s + 1) g
        = ((pullsAux A arms H (A.initialize' arms.length) g).1
              :: (simPulls A arms H s
                    (pullsAux A arms H (A.initialize' arms.length) g).2.2).1,
           (simPulls A arms H s
              (pullsAux A arms H (A.initialize' arms.length) g).2.2).2) := rfl
    rw [h1, ih, h2]
    simp

/-- The inner loop of `_test_algorithm`: after `k` of the `horizon`
iterations of run `sim`, the five lists hold the run's column prefixes
written at offset `(sim - 1) * H`, and the algorithm and generator states
are those after `k` pulls. -/
theorem simRun_inv {σ ρ : Type} (A : BanditAlgo σ ρ) (arms : List (Arm ρ))
    (H sim : ℕ) (st : SimState σ ρ) (N : ℕ)
    (hN : (sim - 1) * H + H ≤ N)
    (h5 : st.cumulative_rewards.length = N) :
    ∀ k, k ≤ H →
    (List.range k).foldl (fun s t0 => simPull A arms H sim (t0 + 1) s) st
      = { algo := (pullsAux A arms k st.algo st.rng).2.1,
          rng := (pullsAux A arms k st.algo st.rng).2.2,
          sim_nums := setRange st.sim_nums ((sim - 1) * H) (List.replicate k sim),
          times := setRange st.times ((sim - 1) * H)
            ((List.range k).map (fun j => j + 1)),
          chosen_arms := setRange st.chosen_arms ((sim - 1) * H)
            ((pullsAux A arms k st.algo st.rng).1.map (fun p => p.1 + 1)),
          rewards := setRange st.rewards ((sim - 1) * H)
            ((pullsAux A arms k st.algo st.rng).1.map (fun p => p.2)),
          cumulative_rewards := setRange st.cumulative_rewards ((sim - 1) * H)
            (partialSums 0
              ((pullsAux A arms k st.algo st.rng).1.map (fun p => p.2))) } := by
  intro k
  induction k with
  | zero => intro _; rfl
  | succ k ih =>
    intro hk1
    have hk : k ≤ H := Nat.le_of_succ_le hk1
    rw [List.range_succ, List.foldl_append, ih hk, List.foldl_cons, List.foldl_nil]
    have hP := pullsAux_succ A arms k st.algo st.rng
    have hPlen := pullsAux_length A arms k st.algo st.rng
    have hidx : (sim - 1) * H + (k + 1) - 1 = (sim - 1) * H + k :=
      Nat.add_succ_sub_one _ k
    simp only [simPull, hidx, hP, onePull]
    simp only [SimState.mk.injEq]
    refine ⟨trivial, trivial, ?_, ?_, ?_, ?_, ?_⟩
    · rw [List.replicate_succ', setRange_snoc, List.length_replicate]
    · simp only [List.map_append, List.map_cons, List.map_nil]
      rw [setRange_snoc, List.length_map, List.length_range]
    · simp only [List.map_append, List.map_cons, List.map_nil]
      rw [setRange_snoc, List.length_map, hPlen]
    · simp only [List.map_append, List.map_cons, List.map_nil]
      rw [setRange_snoc, List.length_map, hPlen]
    · have hmaplen :
          ((pullsAux A arms k st.algo st.rng).1.map (fun p => p.2)).length = k := by
        rw [List.length_map, hPlen]
      have hpslen :
          (partialSums 0
            ((pullsAux A arms k st.algo st.rng).1.map (fun p => p.2))).length = k := by
        rw [partialSums_length, hmaplen]
      by_cases hk0 : k = 0
      · subst hk0
        have hP0 : pullsAux A arms 0 st.algo st.rng = ([], st.algo, st.rng) := rfl
        rw [if_pos rfl, hP0]
        simp [setRange, partialSums]
      · rw [if_neg (by omega)]
        have h1k : 1 ≤ k := Nat.one_le_iff_ne_zero.mpr hk0
        have hread :
            (setRange st.cumulative_rewards ((sim - 1) * H)
              (partialSums 0
                ((pullsAux A arms k st.algo st.rng).1.map (fun p => p.2)))).getD
              ((sim - 1) * H + k - 1) 0
            = ((pullsAux A arms k st.algo st.rng).1.map (fun p => p.2)).sum := by
          rw [Nat.add_sub_assoc h1k]
          rw [getD_setRange _ _ _ _ _
            (by rw [hpslen]; omega)
            (by rw [hpslen, h5]
                exact le_trans (Nat.add_le_add_left hk _) hN)]
          rw [partialSums_getD _ _ _ (by rw [hmaplen]; omega),
            Nat.sub_add_cancel h1k,
            List.take_of_length_le (le_of_eq hmaplen), zero_add]
        rw [hread]
        simp only [List.map_append, List.map_cons, List.map_nil]
        rw [partialSums_snoc, setRange_snoc, partialSums_length, List.length_map,
          hPlen, zero_add]

theorem flatten_length_const {α : Type} : ∀ (L : List (List α)) (H : ℕ),
    (∀ l ∈ L, l.length = H) → L.flatten.length = L.length * H := by
  intro L
  induction L with
  | nil => intro H _; simp
  | cons l L ih =>
    intro H h
    rw [List.flatten_cons, List.length_append,
      ih H (fun x hx => h x (List.mem_cons_of_mem _ hx)),
      h l (List.mem_cons_self _ _), List.length_cons]
    ring

/-- The algorithm-object state after `s` complete runs of the simulator. -/
def algoAfter {σ ρ : Type} (A : BanditAlgo σ ρ) (arms : List (Arm ρ))
    (H : ℕ) (s0 : σ) (r0 : ρ) : ℕ → σ
  | 0 => s0
  | s + 1 => (pullsAux A arms H (A.initialize' arms.length)
      (simPulls A arms H s r0).2).2.1

/-- The outer loop of `_test_algorithm`: after `s` of the `num_sims` runs,
the five lists hold the first `s` run columns, flattened at offset 0. -/
theorem test_algorithm_inv {σ ρ : Type} (A : BanditAlgo σ ρ) (arms : List (Arm ρ))
    (S H : ℕ) (s0 : σ) (r0 : ρ) : ∀ s, s ≤ S →
    (List.range s).foldl (fun st sm => simRun A arms H (sm + 1) st)
        ({ algo := s0, rng := r0,
           sim_nums := List.replicate (S * H) 0,
           times := List.replicate (S * H) 0,
           chosen_arms := List.replicate (S * H) 0,
           rewards := List.replicate (S * H) 0,
           cumulative_rewards := List.replicate (S * H) 0 } : SimState σ ρ)
      = { algo := algoAfter A arms H s0 r0 s,
          rng := (simPulls A arms H s r0).2,
          sim_nums := setRange (List.replicate (S * H) 0) 0
            (((List.range s).map (fun i => List.replicate H (i + 1))).flatten),
          times := setRange (List.replicate (S * H) 0) 0
            (((List.range s).map
                (fun _ => (List.range H).map (fun j => j + 1))).flatten),
          chosen_arms := setRange (List.replicate (S * H) 0) 0
            (((simPulls A arms H s r0).1.map
                (fun ps => ps.map (fun p => p.1 + 1))).flatten),
          rewards := setRange (List.replicate (S * H) 0) 0
            (((simPulls A arms H s r0).1.map
                (fun ps => ps.map (fun p => p.2))).flatten),
          cumulative_rewards := setRange (List.replicate (S * H) 0) 0
            (((simPulls A arms H s r0).1.map
                (fun ps => partialSums 0 (ps.map (fun p => p.2)))).flatten) } := by
  intro s
  induction s with
  | zero => intro _; rfl
  | succ s ih =>
    intro hs1
    have hs : s ≤ S := Nat.le_of_succ_le hs1
    rw [List.range_succ, List.foldl_append, ih hs, List.foldl_cons, List.foldl_nil,
      simRun]
    have hN : (s + 1 - 1) * H + H ≤ S * H := by
      rw [Nat.succ_sub_one, ← Nat.succ_mul]
      exact Nat.mul_le_mul_right H hs1
    rw [simRun_inv A arms H (s + 1) _ (S * H) hN
      (by rw [setRange_length, List.length_replicate]) H (le_refl H)]
    have hJsim :
        (((List.range s).map (fun i => List.replicate H (i + 1))).flatten).length
          = s * H := by
      rw [flatten_length_const _ H (by
        intro l hl
        obtain ⟨i, hi, rfl⟩ := List.mem_map.mp hl
        exact List.length_replicate H (i + 1)), List.length_map, List.length_range]
    have hJtimes :
        (((List.range s).map
            (fun _ => (List.range H).map (fun j => j + 1))).flatten).length
          = s * H := by
      rw [flatten_length_const _ H (by
        intro l hl
        obtain ⟨i, hi, rfl⟩ := List.mem_map.mp hl
        rw [List.length_map, List.length_range]), List.length_map, List.length_range]
    have hJch :
        (((simPulls A arms H s r0).1.map
            (fun ps => ps.map (fun p => p.1 + 1))).flatten).length = s * H := by
      rw [flatten_length_const _ H (by
        intro l hl
        obtain ⟨ps, hps, rfl⟩ := List.mem_map.mp hl
        rw [List.length_map]
        exact simPulls_mem_length A arms H s r0 ps hps),
        List.length_map, simPulls_count]
    have hJrw :
        (((simPulls A arms H s r0).1.map
            (fun ps => ps.map (fun p => p.2))).flatten).length = s * H := by
      rw [flatten_length_const _ H (by
        intro l hl
        obtain ⟨ps, hps, rfl⟩ := List.mem_map.mp hl
        rw [List.length_map]
        exact simPulls_mem_length A arms H s r0 ps hps),
        List.length_map, simPulls_count]
    have hJcum :
        (((simPulls A arms H s r0).1.map
            (fun ps => partialSums 0 (ps.map (fun p => p.2)))).flatten).length
          = s * H := by
      rw [flatten_length_const _ H (by
        intro l hl
        obtain ⟨ps, hps, rfl⟩ := List.mem_map.mp hl
        rw [partialSums_length, List.length_map]
        exact simPulls_mem_length A arms H s r0 ps hps),
        List.length_map, simPulls_count]
    simp only [SimState.mk.injEq]
    refine ⟨?_, ?_, ?_, ?_, ?_, ?_, ?_⟩
    · rfl
    · rw [simPulls_succ]
    · rw [List.map_append, List.flatten_append, List.map_cons,
        List.map_nil, List.flatten_cons, List.flatten_nil, List.append_nil,
        setRange_append, hJsim, Nat.zero_add, Nat.succ_sub_one]
    · rw [List.map_append, List.flatten_append, List.map_cons,
        List.map_nil, List.flatten_cons, List.flatten_nil, List.append_nil,
        setRange_append, hJtimes, Nat.zero_add, Nat.succ_sub_one]
    · rw [simPulls_succ, List.map_append, List.flatten_append, List.map_cons,
        List.map_nil, List.flatten_cons, List.flatten_nil, List.append_nil,
        setRange_append, hJch, Nat.zero_add, Nat.succ_sub_one]
    · rw [simPulls_succ, List.map_append, List.flatten_append, List.map_cons,
        List.map_nil, List.flatten_cons, List.flatten_nil, List.append_nil,
        setRange_append, hJrw, Nat.zero_add, Nat.succ_sub_one]
    · rw [simPulls_succ, List.map_append, List.flatten_append, List.map_cons,
        List.map_nil, List.flatten_cons, List.flatten_nil, List.append_nil,
        setRange_append, hJcum, Nat.zero_add, Nat.succ_sub_one]

/-- Full characterization of `_test_algorithm`: each trace list is the
run-major flattening of per-run columns, and the generator ends where the
pull sequence leaves it. -/
theorem test_algorithm_spec {σ ρ : Type} (A : BanditAlgo σ ρ) (arms : List (Arm ρ))
    (S H : ℕ) (s0 : σ) (r0 : ρ) :
    (test_algorithm A arms S H s0 r0).rng = (simPulls A arms H S r0).2 ∧
    (test_algorithm A arms S H s0 r0).sim_nums
      = ((List.range S).map (fun i => List.replicate H (i + 1))).flatten ∧
    (test_algorithm A arms S H s0 r0).times
      = ((List.range S).map
          (fun _ => (List.range H).map (fun j => j + 1))).flatten ∧
    (test_algorithm A arms S H s0 r0).chosen_arms
      = ((simPulls A arms H S r0).1.map
          (fun ps => ps.map (fun p => p.1 + 1))).flatten ∧
    (test_algorithm A arms S H s0 r0).rewards
      = ((simPulls A arms H S r0).1.map (fun ps => ps.map (fun p => p.2))).flatten ∧
    (test_algorithm A arms S H s0 r0).cumulative_rewards
      = ((simPulls A arms H S r0).1.map
          (fun ps => partialSums 0 (ps.map (fun p => p.2)))).flatten := by
  have h := test_algorithm_inv A arms S H s0 r0 S (le_refl S)
  rw [test_algorithm, h]
  refine ⟨rfl, ?_, ?_, ?_, ?_, ?_⟩
  · apply setRange_full
    rw [List.length_replicate,
      flatten_length_const _ H (by
        intro l hl
        obtain ⟨i, hi, rfl⟩ := List.mem_map.mp hl
        exact List.length_replicate H (i + 1)), List.length_map, List.length_range]
  · apply setRange_full
    rw [List.length_replicate,
      flatten_length_const _ H (by
        intro l hl
        obtain ⟨i, hi, rfl⟩ := List.mem_map.mp hl
        rw [List.length_map, List.length_range]), List.length_map, List.length_range]
  · apply setRange_full
    rw [List.length_replicate,
      flatten_length_const _ H (by
        intro l hl
        obtain ⟨ps, hps, rfl⟩ := List.mem_map.mp hl
        rw [List.length_map]
        exact simPulls_mem_length A arms H S r0 ps hps),
      List.length_map, simPulls_count]
  · apply setRange_full
    rw [List.length_replicate,
      flatten_length_const _ H (by
        intro l hl
        obtain ⟨ps, hps, rfl⟩ := List.mem_map.mp hl
        rw [List.length_map]
        exact simPulls_mem_length A arms H S r0 ps hps),
      List.length_map, simPulls_count]
  · apply setRange_full
    rw [List.length_replicate,
      flatten_length_const _ H (by
        intro l hl
        obtain ⟨ps, hps, rfl⟩ := List.mem_map.mp hl
        rw [partialSums_length, List.length_map]
        exact simPulls_mem_length A arms H S r0 ps hps),
      List.length_map, simPulls_count]

/-- Position `i` of a flattening of equal-length chunks is position
`i % H` of chunk `i / H`. -/
theorem flatten_getD_const {α : Type} (d : α) : ∀ (L : List (List α)) (H : ℕ),
    0 < H → (∀ l ∈ L, l.length = H) →
    ∀ i, i < L.length * H →
    L.flatten.getD i d = (L.getD (i / H) []).getD (i % H) d := by
  intro L
  induction L with
  | nil => intro H hH _ i hi; simp at hi
  | cons l L ih =>
    intro H hH h i hi
    rw [List.flatten_cons]
    have hl : l.length = H := h l (List.mem_cons_self _ _)
    by_cases hiH : i < H
    · rw [List.getD_append _ _ _ _ (by rw [hl]; exact hiH),
        Nat.div_eq_of_lt hiH, Nat.mod_eq_of_lt hiH]
      rfl
    · push_neg at hiH
      obtain ⟨j, rfl⟩ : ∃ j, i = H + j := ⟨i - H, by omega⟩
      rw [List.getD_append_right _ _ _ _ (by rw [hl]; omega), hl]
      have h1 : H + j - H = j := by omega
      have h2 : (H + j) / H = j / H + 1 := by
        rw [Nat.add_comm H j, Nat.add_div_right _ hH]
      have h3 : (H + j) % H = j % H := Nat.add_mod_left H j
      rw [h1, h2, h3, List.getD_cons_succ]
      apply ih H hH (fun x hx => h x (List.mem_cons_of_mem _ hx))
      rw [List.length_cons, Nat.succ_mul] at hi
      omega

theorem getD_map_range {α : Type} (f : ℕ → α) (d : α) (S j : ℕ) (hj : j < S) :
    ((List.range S).map f).getD j d = f j := by
  rw [List.getD_eq_getElem _ _ (by simpa using hj), List.getElem_map,
    List.getElem_range]

theorem getD_replicate {α : Type} (a d : α) (n j : ℕ) (hj : j < n) :
    (List.replicate n a).getD j d = a := by
  rw [List.getD_eq_getElem _ _ (by simpa using hj), List.getElem_replicate]

theorem getD_map_of_lt {α β : Type} (f : α → β) (l : List α) (d : β) (e : α)
    (j : ℕ) (hj : j < l.length) :
    (l.map f).getD j d = f (l.getD j e) := by
  rw [List.getD_eq_getElem _ _ (by simpa using hj), List.getElem_map,
    List.getD_eq_getElem _ _ hj]

theorem take_sum_eq_range_getD_sum : ∀ (t : ℕ) (l : List ℚ), t ≤ l.length →
    (l.take t).sum = ((List.range t).map (fun u => l.getD u 0)).sum := by
  intro t
  induction t with
  | zero => intro l _; simp
  | succ t ih =>
    intro l ht
    have hlt : t < l.length := ht
    rw [List.range_succ, List.map_append, List.sum_append,
      ← ih l (le_of_lt hlt), List.take_succ, List.sum_append,
      List.getElem?_eq_getElem hlt]
    simp [List.getD_eq_getElem?_getD, List.getElem?_eq_getElem hlt]

/-- C5: the simulator returns five sequences each of length `S * H`; the
step of 1-based run `sim` at 1-based time `t` is stored at flat index
`(sim - 1) * H + (t - 1)`, so `sim_numbers` is non-decreasing ranging
over `1..S`, within each run `times` ranges `1..H` in order, and
`chosen_arms` records the selected 0-based arm index plus 1. -/
theorem C5_trace_shape {σ ρ : Type} (A : BanditAlgo σ ρ) (arms : List (Arm ρ))
    (S H : ℕ) (s0 : σ) (r0 : ρ) (hS : 0 < S) (hH : 0 < H) :
    ((test_algorithm A arms S H s0 r0).sim_nums.length = S * H ∧
     (test_algorithm A arms S H s0 r0).times.length = S * H ∧
     (test_algorithm A arms S H s0 r0).chosen_arms.length = S * H ∧
     (test_algorithm A arms S H s0 r0).rewards.length = S * H ∧
     (test_algorithm A arms S H s0 r0).cumulative_rewards.length = S * H) ∧
    (∀ i, i < S * H →
      (test_algorithm A arms S H s0 r0).sim_nums.getD i 0 = i / H + 1 ∧
      (test_algorithm A arms S H s0 r0).times.getD i 0 = i % H + 1 ∧
      (test_algorithm A arms S H s0 r0).chosen_arms.getD i 0
        = (((simPulls A arms H S r0).1.getD (i / H) []).getD (i % H) (0, 0)).1
            + 1) ∧
    (∀ sim t, 1 ≤ sim → sim ≤ S → 1 ≤ t → t ≤ H →
      (test_algorithm A arms S H s0 r0).sim_nums.getD
          ((sim - 1) * H + (t - 1)) 0 = sim ∧
      (test_algorithm A arms S H s0 r0).times.getD
          ((sim - 1) * H + (t - 1)) 0 = t) ∧
    (∀ i j, i ≤ j → j < S * H →
      (test_algorithm A arms S H s0 r0).sim_nums.getD i 0
        ≤ (test_algorithm A arms S H s0 r0).sim_nums.getD j 0) ∧
    (∀ i, i < S * H →
      1 ≤ (test_algorithm A arms S H s0 r0).sim_nums.getD i 0 ∧
      (test_algorithm A arms S H s0 r0).sim_nums.getD i 0 ≤ S ∧
      1 ≤ (test_algorithm A arms S H s0 r0).times.getD i 0 ∧
      (test_algorithm A arms S H s0 r0).times.getD i 0 ≤ H) := by
  obtain ⟨hrng, hsim, htim, hch, hrw, hcum⟩ := test_algorithm_spec A arms S H s0 r0
  have hmem1 : ∀ l ∈ (List.range S).map (fun i => List.replicate H (i + 1)),
      l.length = H := by
    intro l hl; obtain ⟨i, _, rfl⟩ := List.mem_map.mp hl
    exact List.length_replicate H (i + 1)
  have hmem2 : ∀ l ∈ (List.range S).map
      (fun _ => (List.range H).map (fun j => j + 1)), l.length = H := by
    intro l hl; obtain ⟨i, _, rfl⟩ := List.mem_map.mp hl
    rw [List.length_map, List.length_range]
  have hmem3 : ∀ l ∈ (simPulls A arms H S r0).1.map
      (fun ps => ps.map (fun p => p.1 + 1)), l.length = H := by
    intro l hl; obtain ⟨ps, hps, rfl⟩ := List.mem_map.mp hl
    rw [List.length_map]; exact simPulls_mem_length A arms H S r0 ps hps
  have hmem4 : ∀ l ∈ (simPulls A arms H S r0).1.map
      (fun ps => ps.map (fun p => p.2)), l.length = H := by
    intro l hl; obtain ⟨ps, hps, rfl⟩ := List.mem_map.mp hl
    rw [List.length_map]; exact simPulls_mem_length A arms H S r0 ps hps
  have hmem5 : ∀ l ∈ (simPulls A arms H S r0).1.map
      (fun ps => partialSums 0 (ps.map (fun p => p.2))), l.length = H := by
    intro l hl; obtain ⟨ps, hps, rfl⟩ := List.mem_map.mp hl
    rw [partialSums_length, List.length_map]
    exact simPulls_mem_length A arms H S r0 ps hps
  have hsimnum : ∀ i, i < S * H →
      (test_algorithm A arms S H s0 r0).sim_nums.getD i 0 = i / H + 1 := by
    intro i hi
    rw [hsim, flatten_getD_const 0 _ H hH hmem1 i
      (by rw [List.length_map, List.length_range]; exact hi)]
    rw [getD_map_range _ _ S (i / H) ((Nat.div_lt_iff_lt_mul hH).mpr hi)]
    exact getD_replicate _ _ H (i % H) (Nat.mod_lt i hH)
  have htimes : ∀ i, i < S * H →
      (test_algorithm A arms S H s0 r0).times.getD i 0 = i % H + 1 := by
    intro i hi
    rw [htim, flatten_getD_const 0 _ H hH hmem2 i
      (by rw [List.length_map, List.length_range]; exact hi)]
    rw [getD_map_range _ _ S (i / H) ((Nat.div_lt_iff_lt_mul hH).mpr hi)]
    exact getD_map_range _ _ H (i % H) (Nat.mod_lt i hH)
  refine ⟨⟨?_, ?_, ?_, ?_, ?_⟩, ?_, ?_, ?_, ?_⟩
  · rw [hsim, flatten_length_const _ H hmem1, List.length_map, List.length_range]
  · rw [htim, flatten_length_const _ H hmem2, List.length_map, List.length_range]
  · rw [hch, flatten_length_const _ H hmem3, List.length_map, simPulls_count]
  · rw [hrw, flatten_length_const _ H hmem4, List.length_map, simPulls_count]
  · rw [hcum, flatten_length_const _ H hmem5, List.length_map, simPulls_count]
  · intro i hi
    refine ⟨hsimnum i hi, htimes i hi, ?_⟩
    have hiS : i / H < S := (Nat.div_lt_iff_lt_mul hH).mpr hi
    have hps : (simPulls A arms H S r0).1.getD (i / H) []
        ∈ (simPulls A arms H S r0).1 := by
      rw [List.getD_eq_getElem _ _ (by rw [simPulls_count]; exact hiS)]
      exact List.getElem_mem _
    have hpslen : ((simPulls A arms H S r0).1.getD (i / H) []).length = H :=
      simPulls_mem_length A arms H S r0 _ hps
    rw [hch, flatten_getD_const 0 _ H hH hmem3 i
      (by rw [List.length_map, simPulls_count]; exact hi)]
    have e1 : ((simPulls A arms H S r0).1.map
          (fun ps => ps.map (fun p => p.1 + 1))).getD (i / H) ([] : List ℕ)
        = ((simPulls A arms H S r0).1.getD (i / H)
            ([] : List (ℕ × ℚ))).map (fun p => p.1 + 1) :=
      getD_map_of_lt _ _ _ _ (i / H) (by rw [simPulls_count]; exact hiS)
    have e2 : (((simPulls A arms H S r0).1.getD (i / H)
          ([] : List (ℕ × ℚ))).map (fun p => p.1 + 1)).getD (i % H) (0 : ℕ)
        = (((simPulls A arms H S r0).1.getD (i / H)
            ([] : List (ℕ × ℚ))).getD (i % H) ((0, 0) : ℕ × ℚ)).1 + 1 :=
      getD_map_of_lt _ _ _ _ (i % H) (by rw [hpslen]; exact Nat.mod_lt i hH)
    rw [e1, e2]
  · intro sim t hsim1 hsimS ht1 htH
    obtain ⟨s, rfl⟩ : ∃ s, sim = s + 1 := ⟨sim - 1, by omega⟩
    obtain ⟨u, rfl⟩ : ∃ u, t = u + 1 := ⟨t - 1, by omega⟩
    simp only [Nat.add_sub_cancel]
    have huH : u < H := by omega
    have hidx : s * H + u < S * H := by
      have e2 : s * H + H ≤ S * H := by
        rw [← Nat.succ_mul]
        exact Nat.mul_le_mul_right H hsimS
      omega
    have hdiv : (s * H + u) / H = s := by
      rw [Nat.mul_comm s H, Nat.mul_add_div hH, Nat.div_eq_of_lt huH, Nat.add_zero]
    have hmod : (s * H + u) % H = u := by
      rw [Nat.mul_comm s H, Nat.mul_add_mod, Nat.mod_eq_of_lt huH]
    exact ⟨by rw [hsimnum _ hidx, hdiv], by rw [htimes _ hidx, hmod]⟩
  · intro i j hij hj
    rw [hsimnum i (lt_of_le_of_lt hij hj), hsimnum j hj]
    exact Nat.succ_le_succ (Nat.div_le_div_right hij)
  · intro i hi
    rw [hsimnum i hi, htimes i hi]
    refine ⟨Nat.le_add_left 1 _, ?_, Nat.le_add_left 1 _, ?_⟩
    · exact Nat.succ_le_of_lt ((Nat.div_lt_iff_lt_mul hH).mpr hi)
    · exact Nat.succ_le_of_lt (Nat.mod_lt i hH)

/-- C4: every entry of `cumulative_rewards` is the sum of the current
run's rewards up to and including that step; at every step with `t = 1`
(flat index with `i % H = 0`) it equals exactly that step's reward, never
carrying the previous run's total. -/
theorem C4_cumulative_reset {σ ρ : Type} (A : BanditAlgo σ ρ) (arms : List (Arm ρ))
    (S H : ℕ) (s0 : σ) (r0 : ρ) (hH : 0 < H) :
    (∀ i, i < S * H →
      (test_algorithm A arms S H s0 r0).cumulative_rewards.getD i 0
        = ((List.range (i % H + 1)).map
            (fun u => (test_algorithm A arms S H s0 r0).rewards.getD
              (i / H * H + u) 0)).sum) ∧
    (∀ i, i < S * H → i % H = 0 →
      (test_algorithm A arms S H s0 r0).cumulative_rewards.getD i 0
        = (test_algorithm A arms S H s0 r0).rewards.getD i 0) := by
  obtain ⟨hrng, hsim, htim, hch, hrw, hcum⟩ := test_algorithm_spec A arms S H s0 r0
  have hmem4 : ∀ l ∈ (simPulls A arms H S r0).1.map
      (fun ps => ps.map (fun p => p.2)), l.length = H := by
    intro l hl; obtain ⟨ps, hps, rfl⟩ := List.mem_map.mp hl
    rw [List.length_map]; exact simPulls_mem_length A arms H S r0 ps hps
  have hmem5 : ∀ l ∈ (simPulls A arms H S r0).1.map
      (fun ps => partialSums 0 (ps.map (fun p => p.2))), l.length = H := by
    intro l hl; obtain ⟨ps, hps, rfl⟩ := List.mem_map.mp hl
    rw [partialSums_length, List.length_map]
    exact simPulls_mem_length A arms H S r0 ps hps
  have hpart1 : ∀ i, i < S * H →
      (test_algorithm A arms S H s0 r0).cumulative_rewards.getD i 0
        = ((List.range (i % H + 1)).map
            (fun u => (test_algorithm A arms S H s0 r0).rewards.getD
              (i / H * H + u) 0)).sum := by
    intro i hi
    have hiS : i / H < S := (Nat.div_lt_iff_lt_mul hH).mpr hi
    have hps : (simPulls A arms H S r0).1.getD (i / H) []
        ∈ (simPulls A arms H S r0).1 := by
      rw [List.getD_eq_getElem _ _ (by rw [simPulls_count]; exact hiS)]
      exact List.getElem_mem _
    have hpslen : ((simPulls A arms H S r0).1.getD (i / H) []).length = H :=
      simPulls_mem_length A arms H S r0 _ hps
    have cumval :
        (test_algorithm A arms S H s0 r0).cumulative_rewards.getD i 0
          = ((((simPulls A arms H S r0).1.getD (i / H)
                ([] : List (ℕ × ℚ))).map (fun p => p.2)).take (i % H + 1)).sum := by
      rw [hcum, flatten_getD_const 0 _ H hH hmem5 i
        (by rw [List.length_map, simPulls_count]; exact hi)]
      have e1 : ((simPulls A arms H S r0).1.map
            (fun ps => partialSums 0 (ps.map (fun p => p.2)))).getD (i / H)
              ([] : List ℚ)
          = partialSums 0 (((simPulls A arms H S r0).1.getD (i / H)
              ([] : List (ℕ × ℚ))).map (fun p => p.2)) :=
        getD_map_of_lt _ _ _ _ (i / H) (by rw [simPulls_count]; exact hiS)
      rw [e1, partialSums_getD _ _ _
        (by rw [List.length_map, hpslen]; exact Nat.mod_lt i hH), zero_add]
    have hrews : ∀ u, u < H →
        (test_algorithm A arms S H s0 r0).rewards.getD (i / H * H + u) 0
          = (((simPulls A arms H S r0).1.getD (i / H)
              ([] : List (ℕ × ℚ))).map (fun p => p.2)).getD u 0 := by
      intro u hu
      have hj : i / H * H + u < S * H := by
        have e2 : i / H * H + H ≤ S * H := by
          rw [← Nat.succ_mul]
          exact Nat.mul_le_mul_right H hiS
        omega
      rw [hrw, flatten_getD_const 0 _ H hH hmem4 _
        (by rw [List.length_map, simPulls_count]; exact hj)]
      have hdiv : (i / H * H + u) / H = i / H := by
        rw [Nat.mul_comm, Nat.mul_add_div hH, Nat.div_eq_of_lt hu, Nat.add_zero]
      have hmod : (i / H * H + u) % H = u := by
        rw [Nat.mul_comm, Nat.mul_add_mod, Nat.mod_eq_of_lt hu]
      have e3 : ((simPulls A arms H S r0).1.map
            (fun q => q.map (fun p => p.2))).getD (i / H) ([] : List ℚ)
          = ((simPulls A arms H S r0).1.getD (i / H)
              ([] : List (ℕ × ℚ))).map (fun p => p.2) :=
        getD_map_of_lt _ _ _ _ (i / H) (by rw [simPulls_count]; exact hiS)
      rw [hdiv, hmod, e3]
    rw [cumval, take_sum_eq_range_getD_sum (i % H + 1) _
      (by rw [List.length_map, hpslen]; exact Nat.succ_le_of_lt (Nat.mod_lt i hH))]
    congr 1
    apply List.map_congr_left
    intro u hu
    have hu2 : u < H := lt_of_lt_of_le (List.mem_range.mp hu)
      (Nat.succ_le_of_lt (Nat.mod_lt i hH))
    exact (hrews u hu2).symm
  refine ⟨hpart1, ?_⟩
  intro i hi h0
  rw [hpart1 i hi, h0]
  have hcancel : i / H * H = i :=
    Nat.div_mul_cancel (Nat.dvd_of_mod_eq_zero h0)
  simp only [List.range_succ, List.range_zero, List.nil_append, List.map_cons,
    List.map_nil, List.sum_cons, List.sum_nil, add_zero, hcancel]

/-- A concrete deterministic algorithm instance used to witness the
simulator theorems: one state, always selects arm 0. -/
def constArmAlgo : BanditAlgo Unit Unit :=
  { initialize' := fun _ => (),
    select_arm := fun _ g => (0, g),
    update := fun s _ _ => s }

/-- Witness for C5 at one run of horizon one over a single constant arm. -/
theorem C5_trace_shape_witness :
    (0 < 1 ∧ 0 < 1) ∧
    (test_algorithm constArmAlgo [fun g => ((1 : ℚ), g)] 1 1 () ()).sim_nums.length
      = 1 * 1 :=
  ⟨⟨Nat.one_pos, Nat.one_pos⟩,
    (C5_trace_shape constArmAlgo [fun g => ((1 : ℚ), g)] 1 1 () ()
      Nat.one_pos Nat.one_pos).1.1⟩

/-- Witness for C4 at one run of horizon one over a single constant arm. -/
theorem C4_cumulative_reset_witness :
    0 < 1 ∧
    (∀ i, i < 1 * 1 → i % 1 = 0 →
      (test_algorithm constArmAlgo [fun g => ((1 : ℚ), g)] 1 1
          () ()).cumulative_rewards.getD i 0
        = (test_algorithm constArmAlgo [fun g => ((1 : ℚ), g)] 1 1
            () ()).rewards.getD i 0) :=
  ⟨Nat.one_pos,
    (C4_cumulative_reset constArmAlgo [fun g => ((1 : ℚ), g)] 1 1 () ()
      Nat.one_pos).2⟩
